import Mathlib

/-!
Verification of the exact-arithmetic core of the `algebraics` repository:
the dyadic-fraction interval engine (`src/interval_arithmetic.rs`) and the
modular-integer layer (`src/mod_int.rs`), shallowly embedded in Lean.

Arbitrary-precision signed integers (`BigInt`) are modelled as `ℤ`,
arbitrary-precision unsigned integers (`BigUint`) as `ℕ`, rationals
(`Ratio<BigInt>`) as `ℚ`.  `BigInt`'s `>>` operator is an arithmetic right
shift that rounds towards negative infinity, so it is modelled by
`Int.fdiv _ (2 ^ k)`; `BigInt`'s `%` is truncated remainder (`Int.tmod`),
`mod_floor` is `Int.fmod`.  Fallible operations (panics on division by a
zero modulus, failing narrowing conversions) return `Option`.
-/

namespace Algebraics

/-! ## Dyadic fraction intervals (`src/interval_arithmetic.rs`) -/

/-- `DyadicFractionInterval`: inclusive interval of the form
`[a / 2^n, b / 2^n]` where `a` and `b` are integers and `n` is an
unsigned integer. -/
structure DyadicFractionInterval where
  lower_bound_numer : ℤ
  upper_bound_numer : ℤ
  log2_denom : ℕ
  deriving DecidableEq, Repr

abbrev DFI := DyadicFractionInterval

/-- `convert_log2_denom_floor`: exact left shift when precision increases,
arithmetic (flooring) right shift when it decreases. -/
def convert_log2_denom_floor (numer : ℤ) (old_log2_denom new_log2_denom : ℕ) : ℤ :=
  if old_log2_denom ≤ new_log2_denom then
    numer * 2 ^ (new_log2_denom - old_log2_denom)
  else
    Int.fdiv numer (2 ^ (old_log2_denom - new_log2_denom))

/-- `convert_log2_denom_ceil`: exact left shift when precision increases;
when it decreases, negate, floor-shift, negate (ceiling division). -/
def convert_log2_denom_ceil (numer : ℤ) (old_log2_denom new_log2_denom : ℕ) : ℤ :=
  if old_log2_denom ≤ new_log2_denom then
    numer * 2 ^ (new_log2_denom - old_log2_denom)
  else
    -Int.fdiv (-numer) (2 ^ (old_log2_denom - new_log2_denom))

namespace DyadicFractionInterval

/-- `DyadicFractionInterval::new`: stores the numerator pair unchecked. -/
def new (lower_bound_numer upper_bound_numer : ℤ) (log2_denom : ℕ) : DFI :=
  ⟨lower_bound_numer, upper_bound_numer, log2_denom⟩

/-- `DyadicFractionInterval::from_ratio_range`: lower numerator is
`floor(lower_bound * 2^log2_denom)`, upper numerator is
`ceil(upper_bound * 2^log2_denom)`. -/
def from_ratio_range (lower_bound upper_bound : ℚ) (log2_denom : ℕ) : DFI :=
  ⟨⌊lower_bound * 2 ^ log2_denom⌋, ⌈upper_bound * 2 ^ log2_denom⌉, log2_denom⟩

/-- `DyadicFractionInterval::from_ratio`: tightest bracketing pair
(`floor`, `ceil`) of `ratio * 2^log2_denom`. -/
def from_ratio (ratio : ℚ) (log2_denom : ℕ) : DFI :=
  ⟨⌊ratio * 2 ^ log2_denom⌋, ⌈ratio * 2 ^ log2_denom⌉, log2_denom⟩

/-- `DyadicFractionInterval::from_dyadic_fraction`. -/
def from_dyadic_fraction (numer : ℤ) (log2_denom : ℕ) : DFI :=
  ⟨numer, numer, log2_denom⟩

/-- `DyadicFractionInterval::set_one` (used by `pow` for exponent 0):
both numerators become `1 << log2_denom`. -/
def set_one (i : DFI) : DFI :=
  ⟨2 ^ i.log2_denom, 2 ^ i.log2_denom, i.log2_denom⟩

/-- `DyadicFractionInterval::convert_log2_denom`: floor conversion of the
lower numerator, ceiling conversion of the upper numerator. -/
def convert_log2_denom (i : DFI) (log2_denom : ℕ) : DFI :=
  ⟨convert_log2_denom_floor i.lower_bound_numer i.log2_denom log2_denom,
   convert_log2_denom_ceil i.upper_bound_numer i.log2_denom log2_denom,
   log2_denom⟩

/-- `DyadicFractionInterval::contains_zero`:
`!lower.is_positive() && !upper.is_negative()`. -/
def contains_zero (i : DFI) : Bool :=
  !(0 < i.lower_bound_numer : Bool) && !(i.upper_bound_numer < 0 : Bool)

/-- The real (here: rational) point `q` lies in the closed interval
represented by `i`. -/
def containsQ (i : DFI) (q : ℚ) : Prop :=
  (i.lower_bound_numer : ℚ) / 2 ^ i.log2_denom ≤ q ∧
    q ≤ (i.upper_bound_numer : ℚ) / 2 ^ i.log2_denom

instance (i : DFI) (q : ℚ) : Decidable (containsQ i q) := by
  unfold containsQ; infer_instance

/-- `do_add_sub_mul_assign`: re-express both operands at the coarser
(larger) `log2_denom` by exact left shifts, then combine the four aligned
numerators with `op` at that shared denominator. -/
def do_add_sub_mul (op : ℤ → ℤ → ℤ → ℤ → ℕ → ℤ × ℤ) (lhs rhs : DFI) : DFI :=
  if lhs.log2_denom ≤ rhs.log2_denom then
    let shift_amount := rhs.log2_denom - lhs.log2_denom
    let p := op (lhs.lower_bound_numer * 2 ^ shift_amount)
      (lhs.upper_bound_numer * 2 ^ shift_amount)
      rhs.lower_bound_numer rhs.upper_bound_numer rhs.log2_denom
    ⟨p.1, p.2, rhs.log2_denom⟩
  else
    let shift_amount := lhs.log2_denom - rhs.log2_denom
    let p := op lhs.lower_bound_numer lhs.upper_bound_numer
      (rhs.lower_bound_numer * 2 ^ shift_amount)
      (rhs.upper_bound_numer * 2 ^ shift_amount) lhs.log2_denom
    ⟨p.1, p.2, lhs.log2_denom⟩

/-- `do_add_assign`: componentwise addition of the aligned bounds. -/
def add (lhs rhs : DFI) : DFI :=
  do_add_sub_mul (fun ll lu rl ru _ => (ll + rl, lu + ru)) lhs rhs

/-- `do_sub_assign`: rhs bounds swapped and subtracted. -/
def sub (lhs rhs : DFI) : DFI :=
  do_add_sub_mul (fun ll lu rl ru _ => (ll - ru, lu - rl)) lhs rhs

/-- `do_mul_assign`: the four pairwise products of the aligned bounds;
new lower numerator is the floor shift of the smallest product, new upper
numerator the negate-shift-negate (ceiling) of the largest product. -/
def mul (lhs rhs : DFI) : DFI :=
  do_add_sub_mul
    (fun ll lu rl ru log2_denom =>
      let p1 := ll * rl
      let p2 := ll * ru
      let p3 := lu * rl
      let p4 := lu * ru
      let lower_bound := min (min p1 p2) (min p3 p4)
      let upper_bound := max (max p1 p2) (max p3 p4)
      (Int.fdiv lower_bound (2 ^ log2_denom),
       -Int.fdiv (-upper_bound) (2 ^ log2_denom)))
    lhs rhs

/-- `do_mul_assign_int`: swap the bounds if the scalar is negative, then
multiply both numerators by it. -/
def mul_int (lhs : DFI) (rhs : ℤ) : DFI :=
  let p := if rhs < 0 then
    (lhs.upper_bound_numer, lhs.lower_bound_numer)
  else
    (lhs.lower_bound_numer, lhs.upper_bound_numer)
  ⟨p.1 * rhs, p.2 * rhs, lhs.log2_denom⟩

/-- `do_mul_assign_ratio`: swap the bounds if the rational scalar is
negative, then floor the scaled lower numerator and ceil the scaled upper
numerator. -/
def mul_ratio (lhs : DFI) (rhs : ℚ) : DFI :=
  let p := if rhs < 0 then
    (lhs.upper_bound_numer, lhs.lower_bound_numer)
  else
    (lhs.lower_bound_numer, lhs.upper_bound_numer)
  ⟨⌊rhs * p.1⌋, ⌈rhs * p.2⌉, lhs.log2_denom⟩

/-- `DivAssign<BigInt>`: multiply by the reciprocal rational
`1 / rhs`; constructing that ratio faults when `rhs` is zero. -/
def div_int (lhs : DFI) (rhs : ℤ) : Option DFI :=
  if rhs = 0 then none else some (mul_ratio lhs ((1 : ℚ) / rhs))

/-- `DivAssign<Ratio<BigInt>>`: multiply by `rhs.recip()`, which faults
when `rhs` is zero. -/
def div_ratio (lhs : DFI) (rhs : ℚ) : Option DFI :=
  if rhs = 0 then none else some (mul_ratio lhs rhs⁻¹)

/-- `DyadicFractionInterval::into_square`: zero lower bound when the
interval straddles zero, otherwise the smaller magnitude squared and
floor-shifted; the upper bound is the larger magnitude squared and
floor-shifted (the source uses a plain `>>`, not the negate trick). -/
def into_square (i : DFI) : DFI :=
  let cz := i.contains_zero
  let mn := if i.lower_bound_numer < 0 then -i.lower_bound_numer else i.lower_bound_numer
  let mx := if i.upper_bound_numer < 0 then -i.upper_bound_numer else i.upper_bound_numer
  let p := if mx < mn then (mx, mn) else (mn, mx)
  ⟨if cz then 0 else Int.fdiv (p.1 * p.1) (2 ^ i.log2_denom),
   Int.fdiv (p.2 * p.2) (2 ^ i.log2_denom),
   i.log2_denom⟩

/-- `do_sqrt`: scale both numerators by `2^log2_denom`; lower bound is the
integer square root (faults on a negative radicand), upper bound is the
integer square root bumped by one unless it squares back exactly. -/
def sqrt (i : DFI) : Option DFI :=
  let scaled_lower := i.lower_bound_numer * 2 ^ i.log2_denom
  let scaled_upper := i.upper_bound_numer * 2 ^ i.log2_denom
  if scaled_lower < 0 ∨ scaled_upper < 0 then none
  else
    let lower_bound_numer : ℤ := Nat.sqrt scaled_lower.toNat
    let s : ℤ := Nat.sqrt scaled_upper.toNat
    let upper_bound_numer := if s * s = scaled_upper then s else s + 1
    some ⟨lower_bound_numer, upper_bound_numer, i.log2_denom⟩

/-- Body of the square-and-multiply loop of `Pow for
DyadicFractionInterval`, on (base lower, base upper, accumulated lower,
negated accumulated upper) numerators.  When the exponent is odd the
accumulators are multiplied by the bases and floor-shifted.  In the
squaring step the source floor-shifts `base_lower_bound_numer` twice and
never shifts `base_upper_bound_numer` (its two negations cancel). -/
def pow_loop (log2_denom : ℕ) (exponent : ℕ) (base_lower base_upper : ℤ)
    (retval_lower neg_retval_upper : ℤ) : ℤ × ℤ :=
  let rl := if exponent % 2 = 1 then
    Int.fdiv (retval_lower * base_lower) (2 ^ log2_denom) else retval_lower
  let nru := if exponent % 2 = 1 then
    Int.fdiv (neg_retval_upper * base_upper) (2 ^ log2_denom) else neg_retval_upper
  if h : exponent / 2 = 0 then (rl, nru)
  else
    pow_loop log2_denom (exponent / 2)
      (Int.fdiv (Int.fdiv (base_lower * base_lower) (2 ^ log2_denom)) (2 ^ log2_denom))
      (base_upper * base_upper) rl nru
termination_by exponent
decreasing_by
  have : exponent ≠ 0 := by
    intro h0
    exact h (by simp [h0])
  omega

/-- `Pow<E> for DyadicFractionInterval`: exponent 0 yields `set_one`,
exponent 1 is the identity; otherwise take magnitudes of both bounds
(tracking signs), swap them when the lower magnitude is smaller
(`bounds_swapped = base_lower < base_upper` in the source), for even
exponents discard the sign and swap bookkeeping and zero the base lower
magnitude when the interval straddles zero, run the square-and-multiply
loop, then restore bound order and signs. -/
def pow (i : DFI) (exponent : ℕ) : DFI :=
  if exponent = 0 then i.set_one
  else if exponent = 1 then i
  else
    let cz := i.contains_zero
    let log2_denom := i.log2_denom
    let lneg := i.lower_bound_numer < 0
    let uneg := i.upper_bound_numer < 0
    let bl0 := if lneg then -i.lower_bound_numer else i.lower_bound_numer
    let bu0 := if uneg then -i.upper_bound_numer else i.upper_bound_numer
    let bounds_swapped := bl0 < bu0
    let bl1 := if bounds_swapped then bu0 else bl0
    let bu1 := if bounds_swapped then bl0 else bu0
    let lneg2 := if exponent % 2 = 0 then false else lneg
    let uneg2 := if exponent % 2 = 0 then false else uneg
    let swapped2 := if exponent % 2 = 0 then false else bounds_swapped
    let bl2 := if exponent % 2 = 0 ∧ cz then 0 else bl1
    let p := pow_loop log2_denom exponent bl2 bu1 (2 ^ log2_denom) (-(2 ^ log2_denom : ℤ))
    let retval_upper := -p.2
    let rl := if swapped2 then retval_upper else p.1
    let ru := if swapped2 then p.1 else retval_upper
    ⟨if lneg2 then -rl else rl, if uneg2 then -ru else ru, log2_denom⟩

end DyadicFractionInterval

/-! ## Modular arithmetic (`src/mod_int.rs`)

`impl_int_modulus!` instantiates one implementation pattern per integer
type.  For an unsigned primitive of bit width `w` the wide intermediate
type has width `2 * w` (wrapping at `2 ^ (2 * w)`); for a signed
primitive of width `w` the wide type is the signed type of width `2 * w`
(two's-complement wrap).  `u128`/`i128` promote to `BigUint`/`BigInt`
(no wrap).  `%` on a zero modulus faults, modelled as `none`, as is a
failed narrowing conversion back to the primitive type. -/

/-- Two's-complement wrap of a mathematical integer into the signed
`w`-bit range `[-2^(w-1), 2^(w-1))`. -/
def wrapS (w : ℕ) (x : ℤ) : ℤ :=
  (x + 2 ^ (w - 1)) % 2 ^ w - 2 ^ (w - 1)

/-- `modular_reduce` for an unsigned primitive (`mod_floor`, with a zero
modulus meaning no reduction). -/
def modular_reduce_u (v m : ℕ) : ℕ :=
  if m = 0 then v else v % m

/-- `modular_reduce` for `BigInt` (`mod_floor` = `Int.fmod`, with a zero
modulus meaning no reduction). -/
def modular_reduce_big (v m : ℤ) : ℤ :=
  if m = 0 then v else Int.fmod v m

/-- `modular_add_ref_assign` for an unsigned primitive of width `w`:
promote to the `2*w`-bit unsigned intermediate, add (wrapping), reduce by
the widened modulus (fault on zero), narrow back (fault when out of
range). -/
def modular_add_u (w : ℕ) (a b m : ℕ) : Option ℕ :=
  if m = 0 then none
  else if (a + b) % 2 ^ (2 * w) % m < 2 ^ w then
    some ((a + b) % 2 ^ (2 * w) % m)
  else none

/-- `modular_mul_ref_assign` for an unsigned primitive of width `w`. -/
def modular_mul_u (w : ℕ) (a b m : ℕ) : Option ℕ :=
  if m = 0 then none
  else if (a * b) % 2 ^ (2 * w) % m < 2 ^ w then
    some ((a * b) % 2 ^ (2 * w) % m)
  else none

/-- `modular_neg_assign` for an unsigned primitive: `modulus - value`,
forced to zero when the difference equals the modulus. -/
def modular_neg_u (v m : ℕ) : ℕ :=
  if m - v = m then 0 else m - v

/-- `modular_sub_ref_assign` (default trait method): add the modular
negation of the right operand. -/
def modular_sub_u (w : ℕ) (a b m : ℕ) : Option ℕ :=
  modular_add_u w a (modular_neg_u b m) m

/-- `modular_add_ref_assign` for a signed primitive of width `w`:
promote to the signed `2*w`-bit intermediate (two's-complement wrap on
overflow), truncated remainder by the widened modulus (fault on zero),
narrow back (fault when out of the signed `w`-bit range). -/
def modular_add_s (w : ℕ) (a b m : ℤ) : Option ℤ :=
  if m = 0 then none
  else if -(2 ^ (w - 1)) ≤ Int.tmod (wrapS (2 * w) (a + b)) m ∧
      Int.tmod (wrapS (2 * w) (a + b)) m < 2 ^ (w - 1) then
    some (Int.tmod (wrapS (2 * w) (a + b)) m)
  else none

/-- `modular_mul_ref_assign` for a signed primitive of width `w`. -/
def modular_mul_s (w : ℕ) (a b m : ℤ) : Option ℤ :=
  if m = 0 then none
  else if -(2 ^ (w - 1)) ≤ Int.tmod (wrapS (2 * w) (a * b)) m ∧
      Int.tmod (wrapS (2 * w) (a * b)) m < 2 ^ (w - 1) then
    some (Int.tmod (wrapS (2 * w) (a * b)) m)
  else none

/-- `modular_add_ref_assign` for `u128`: the wide intermediate is
`BigUint`, so no wrap; narrowing back checks the 128-bit range. -/
def modular_add_u128 (a b m : ℕ) : Option ℕ :=
  if m = 0 then none
  else if (a + b) % m < 2 ^ 128 then some ((a + b) % m) else none

/-- `modular_mul_ref_assign` for `u128`. -/
def modular_mul_u128 (a b m : ℕ) : Option ℕ :=
  if m = 0 then none
  else if (a * b) % m < 2 ^ 128 then some ((a * b) % m) else none

/-- `modular_add_ref_assign` for `i128`: the wide intermediate is
`BigInt` (no wrap, truncated remainder); narrowing back checks the
signed 128-bit range. -/
def modular_add_i128 (a b m : ℤ) : Option ℤ :=
  if m = 0 then none
  else if -(2 ^ 127) ≤ Int.tmod (a + b) m ∧ Int.tmod (a + b) m < 2 ^ 127 then
    some (Int.tmod (a + b) m)
  else none

/-- `modular_mul_ref_assign` for `i128`. -/
def modular_mul_i128 (a b m : ℤ) : Option ℤ :=
  if m = 0 then none
  else if -(2 ^ 127) ≤ Int.tmod (a * b) m ∧ Int.tmod (a * b) m < 2 ^ 127 then
    some (Int.tmod (a * b) m)
  else none

/-- `modular_add_ref_assign` for `BigInt` (`impl_bigint_modulus!`): the
intermediate type is `BigInt` itself (`identity` promotions), `%` is
truncated remainder and faults on a zero modulus. -/
def modular_add_big (a b m : ℤ) : Option ℤ :=
  if m = 0 then none else some (Int.tmod (a + b) m)

/-- `modular_mul_ref_assign` for `BigInt`. -/
def modular_mul_big (a b m : ℤ) : Option ℤ :=
  if m = 0 then none else some (Int.tmod (a * b) m)

/-- `modular_neg_assign` for `BigInt`: `modulus - value`, forced to zero
when the difference equals the modulus. -/
def modular_neg_big (v m : ℤ) : ℤ :=
  if m - v = m then 0 else m - v

/-- Monomorphized `modular_add` instances, one per
`impl_prim_int_modulus!` invocation (`usize`/`isize` are modelled at the
64-bit width; their wide types `u128`/`i128` coincide with `u64`/`i64`'s
there). -/
def modular_add_u8 := modular_add_u 8
def modular_add_u16 := modular_add_u 16
def modular_add_u32 := modular_add_u 32
def modular_add_u64 := modular_add_u 64
def modular_add_usize := modular_add_u 64
def modular_add_i8 := modular_add_s 8
def modular_add_i16 := modular_add_s 16
def modular_add_i32 := modular_add_s 32
def modular_add_i64 := modular_add_s 64
def modular_add_isize := modular_add_s 64

/-- Monomorphized `modular_mul` instances. -/
def modular_mul_u8 := modular_mul_u 8
def modular_mul_u16 := modular_mul_u 16
def modular_mul_u32 := modular_mul_u 32
def modular_mul_u64 := modular_mul_u 64
def modular_mul_usize := modular_mul_u 64
def modular_mul_i8 := modular_mul_s 8
def modular_mul_i16 := modular_mul_s 16
def modular_mul_i32 := modular_mul_s 32
def modular_mul_i64 := modular_mul_s 64
def modular_mul_isize := modular_mul_s 64

/-- Loop of `pow_modular_reduce` (`impl_prim_int_modulus!`, unsigned
width `w`): square-and-multiply with `modular_mul` after every
multiplication; `retval` stays unset until the first odd exponent bit;
the final unwrap of an unset `retval` is a fault (`none`). -/
def pow_loop_mul_retval (w m base : ℕ) (retval : Option ℕ) : Option (Option ℕ) :=
  match retval with
  | none => some (some base)
  | some r => (modular_mul_u w r base m).map some

def pow_modular_reduce_loop (w m : ℕ) (base : ℕ) (retval : Option ℕ)
    (exponent : ℕ) : Option ℕ :=
  match (if exponent % 2 = 1 then pow_loop_mul_retval w m base retval
         else some retval) with
  | none => none
  | some retval2 =>
    if h : exponent / 2 = 0 then retval2
    else
      match modular_mul_u w base base m with
      | none => none
      | some base2 => pow_modular_reduce_loop w m base2 retval2 (exponent / 2)
termination_by exponent
decreasing_by
  have : exponent ≠ 0 := by
    intro h0
    exact h (by simp [h0])
  omega

/-- `pow_modular_reduce` for an unsigned primitive of width `w`:
exponent 0 returns the (unreduced) multiplicative identity 1; otherwise
the base is reduced, exponent 1 returns it, and larger exponents run the
square-and-multiply loop. -/
def pow_modular_reduce_u (w : ℕ) (x exponent m : ℕ) : Option ℕ :=
  if exponent = 0 then some 1
  else if exponent = 1 then some (modular_reduce_u x m)
  else pow_modular_reduce_loop w m (modular_reduce_u x m) none exponent

/-- Modelled from the spec: `ExtendedGCD` (defined in `crate::traits`,
which is not under `src/`): the extended Euclidean algorithm, yielding
the gcd together with Bezout coefficients `x`, `y` such that
`x * a + y * b = gcd`. -/
def egcd (a b : ℤ) : ℤ × ℤ × ℤ :=
  if h : b = 0 then (a, 1, 0)
  else
    ((egcd b (a % b)).1, (egcd b (a % b)).2.2,
     (egcd b (a % b)).2.1 - a / b * (egcd b (a % b)).2.2)
termination_by b.natAbs
decreasing_by
  have hb : b ≠ 0 := h
  have h1 : 0 ≤ a % b := Int.emod_nonneg a hb
  have h2 : a % b < |b| := by
    rcases lt_or_le 0 b with hpos | hneg
    · simpa [abs_of_pos hpos] using Int.emod_lt_of_pos a hpos
    · have hbneg : b < 0 := lt_of_le_of_ne hneg hb
      have := Int.emod_lt_of_pos a (b := -b) (by omega)
      rw [Int.emod_neg] at this
      simpa [abs_of_neg hbneg] using this
  simp only [Int.abs_eq_natAbs] at h2
  omega

/-- `ModularInteger::new`: reduce the value into canonical form
(`modular_reduce`, i.e. `mod_floor`) immediately. -/
def mi_new (v m : ℤ) : ℤ :=
  modular_reduce_big v m

/-- `ModularInteger::checked_inverse` (`BigInt` value type): empty for a
zero value; otherwise run the extended Euclidean algorithm against the
modulus and, when the gcd is one, return the Bezout coefficient of the
value reduced into canonical form. -/
def checked_inverse (v m : ℤ) : Option ℤ :=
  if v = 0 then none
  else
    let p := egcd v m
    if p.1 = 1 then some (mi_new p.2.1 m) else none

/-- `CheckedDiv for ModularInteger`: `checked_mul` (moduli always match
here) of the dividend by `checked_inverse` of the divisor. -/
def checked_div (a b m : ℤ) : Option ℤ :=
  (checked_inverse b m).bind fun i => modular_mul_big a i m

/-! ## Helper lemmas about flooring and ceiling shifts -/

theorem fdiv_mul_le (x : ℤ) (n : ℕ) : Int.fdiv x (2 ^ n) * 2 ^ n ≤ x := by
  have h2 : (0 : ℤ) < 2 ^ n := by positivity
  rw [Int.fdiv_eq_ediv _ h2.le]
  have hsum := Int.ediv_add_emod x (2 ^ n)
  have hm := Int.emod_nonneg x h2.ne.symm
  nlinarith [hsum, hm]

theorem fdiv_cast_le (x : ℤ) (n : ℕ) :
    ((Int.fdiv x (2 ^ n) : ℤ) : ℚ) ≤ (x : ℚ) / 2 ^ n := by
  rw [le_div_iff (by positivity)]
  exact_mod_cast fdiv_mul_le x n

theorem ceil_cast_ge (x : ℤ) (n : ℕ) :
    (x : ℚ) / 2 ^ n ≤ ((-Int.fdiv (-x) (2 ^ n) : ℤ) : ℚ) := by
  have h2 : (0 : ℚ) < 2 ^ n := by positivity
  rw [div_le_iff h2]
  have h1 : ((Int.fdiv (-x) (2 ^ n) : ℤ) : ℚ) * 2 ^ n ≤ ((-x : ℤ) : ℚ) := by
    exact_mod_cast fdiv_mul_le (-x) n
  push_cast at h1 ⊢
  nlinarith

theorem fdiv_le_ceil (x y : ℤ) (n : ℕ) (h : x ≤ y) :
    Int.fdiv x (2 ^ n) ≤ -Int.fdiv (-y) (2 ^ n) := by
  have h2 : (0 : ℤ) < 2 ^ n := by positivity
  have h1 := fdiv_mul_le x n
  have h3 := fdiv_mul_le (-y) n
  nlinarith [h1, h3]

theorem convert_log2_denom_floor_le (x : ℤ) (o n : ℕ) :
    ((convert_log2_denom_floor x o n : ℤ) : ℚ) / 2 ^ n ≤ (x : ℚ) / 2 ^ o := by
  unfold convert_log2_denom_floor
  split
  case isTrue hle =>
    have hno : n - o + o = n := by omega
    rw [div_le_div_iff (by positivity) (by positivity)]
    push_cast
    rw [mul_assoc, ← pow_add, hno]
  case isFalse hgt =>
    have hon : o - n + n = o := by omega
    have h1 := fdiv_cast_le x (o - n)
    have h3 := div_le_div_of_le_of_nonneg h1 (by positivity : (0 : ℚ) ≤ 2 ^ n)
    calc ((Int.fdiv x (2 ^ (o - n)) : ℤ) : ℚ) / 2 ^ n
        ≤ (x : ℚ) / 2 ^ (o - n) / 2 ^ n := h3
    _ = (x : ℚ) / 2 ^ o := by rw [div_div, ← pow_add, hon]

theorem convert_log2_denom_ceil_ge (x : ℤ) (o n : ℕ) :
    (x : ℚ) / 2 ^ o ≤ ((convert_log2_denom_ceil x o n : ℤ) : ℚ) / 2 ^ n := by
  unfold convert_log2_denom_ceil
  split
  case isTrue hle =>
    have hno : n - o + o = n := by omega
    rw [div_le_div_iff (by positivity) (by positivity)]
    push_cast
    rw [mul_assoc, ← pow_add, hno]
  case isFalse hgt =>
    have hon : o - n + n = o := by omega
    have h1 := ceil_cast_ge x (o - n)
    have h3 := div_le_div_of_le_of_nonneg h1 (by positivity : (0 : ℚ) ≤ 2 ^ n)
    calc (x : ℚ) / 2 ^ o = (x : ℚ) / 2 ^ (o - n) / 2 ^ n := by
          rw [div_div, ← pow_add, hon]
    _ ≤ ((-Int.fdiv (-x) (2 ^ (o - n)) : ℤ) : ℚ) / 2 ^ n := h3

/-! ## Claim C5: `from_ratio_range` soundness -/

/-- Claim C5: for all rationals `lo ≤ hi` and every precision `n`,
`from_ratio_range lo hi n` has lower numerator `⌊lo * 2 ^ n⌋` and upper
numerator `⌈hi * 2 ^ n⌉`, so `lower / 2 ^ n ≤ lo` and
`hi ≤ upper / 2 ^ n`; in particular `from_ratio_range (2/3) (5/7) 8` is
the interval `[170 / 256, 183 / 256]`. -/
theorem from_ratio_range_sound :
    (∀ (lo hi : ℚ) (n : ℕ), lo ≤ hi →
      (DyadicFractionInterval.from_ratio_range lo hi n).lower_bound_numer = ⌊lo * 2 ^ n⌋ ∧
      (DyadicFractionInterval.from_ratio_range lo hi n).upper_bound_numer = ⌈hi * 2 ^ n⌉ ∧
      ((DyadicFractionInterval.from_ratio_range lo hi n).lower_bound_numer : ℚ) / 2 ^ n ≤ lo ∧
      hi ≤ ((DyadicFractionInterval.from_ratio_range lo hi n).upper_bound_numer : ℚ) / 2 ^ n) ∧
    DyadicFractionInterval.from_ratio_range (2 / 3) (5 / 7) 8 = ⟨170, 183, 8⟩ := by
  constructor
  · intro lo hi n _hle
    refine ⟨rfl, rfl, ?_, ?_⟩
    · rw [div_le_iff (by positivity)]
      exact Int.floor_le (lo * 2 ^ n)
    · rw [le_div_iff (by positivity)]
      exact Int.le_ceil (hi * 2 ^ n)
  · unfold DyadicFractionInterval.from_ratio_range
    have h1 : ⌊(2 / 3 : ℚ) * 2 ^ 8⌋ = 170 := by
      rw [Int.floor_eq_iff]
      norm_num
    have h2 : ⌈(5 / 7 : ℚ) * 2 ^ 8⌉ = 183 := by
      rw [Int.ceil_eq_iff]
      norm_num
    rw [h1, h2]

/-- Witness for C5 at `lo = 1/2`, `hi = 3/4`, `n = 4`. -/
theorem from_ratio_range_sound_witness :
    ((DyadicFractionInterval.from_ratio_range (1 / 2) (3 / 4) 4).lower_bound_numer : ℚ) / 2 ^ 4 ≤ 1 / 2 :=
  (from_ratio_range_sound.1 (1 / 2) (3 / 4) 4 (by norm_num)).2.2.1

/-! ## Claim C6: denominator conversion round trip never shrinks -/

/-- Claim C6: for every interval with `lower ≤ upper` at precision `n1`
and every `n2 > n1`, converting to `log2_denom n2` (an exact left shift)
and back to `n1` (floor on the lower bound, negate/shift/negate ceiling
on the upper bound) yields an interval containing every rational point
the original contained. -/
theorem convert_log2_denom_round_trip (l u : ℤ) (n1 n2 : ℕ)
    (hlu : l ≤ u) (h12 : n1 < n2) (q : ℚ)
    (hq : DyadicFractionInterval.containsQ ⟨l, u, n1⟩ q) :
    DyadicFractionInterval.containsQ
      (DyadicFractionInterval.convert_log2_denom (DyadicFractionInterval.convert_log2_denom ⟨l, u, n1⟩ n2) n1) q := by
  obtain ⟨hql, hqu⟩ := hq
  constructor
  · calc ((DyadicFractionInterval.convert_log2_denom (DyadicFractionInterval.convert_log2_denom ⟨l, u, n1⟩ n2) n1).lower_bound_numer : ℚ) / 2 ^ n1
        ≤ ((convert_log2_denom_floor l n1 n2 : ℤ) : ℚ) / 2 ^ n2 :=
          convert_log2_denom_floor_le _ n2 n1
    _ ≤ (l : ℚ) / 2 ^ n1 := convert_log2_denom_floor_le l n1 n2
    _ ≤ q := hql
  · calc q ≤ (u : ℚ) / 2 ^ n1 := hqu
    _ ≤ ((convert_log2_denom_ceil u n1 n2 : ℤ) : ℚ) / 2 ^ n2 :=
          convert_log2_denom_ceil_ge u n1 n2
    _ ≤ ((DyadicFractionInterval.convert_log2_denom (DyadicFractionInterval.convert_log2_denom ⟨l, u, n1⟩ n2) n1).upper_bound_numer : ℚ) / 2 ^ n1 :=
          convert_log2_denom_ceil_ge _ n2 n1

/-! ## Claim C1: `into_square` soundness fails (code bug)

The source computes the upper numerator as `(&max * &max) >> log2_denom`,
a flooring shift, where the claimed contract (and the negate-trick used by
`do_mul_assign` and `pow` in the same file) requires the ceiling.  On the
point interval `[1/2, 1/2]` the result is `[0, 0]`, which does not
contain `(1/2)^2 = 1/4`. -/

/-- Claim C1 (failing evaluation): squaring the interval `[1/2, 1/2]`
(numerators 1, 1, `log2_denom` 1) yields `[0/2, 0/2]`, so the result is
not an enclosure of `x^2` for `x = 1/2` in the input interval. -/
theorem into_square_unsound :
    DyadicFractionInterval.into_square ⟨1, 1, 1⟩ = ⟨0, 0, 1⟩ ∧
    DyadicFractionInterval.containsQ ⟨1, 1, 1⟩ (1 / 2) ∧
    ¬ DyadicFractionInterval.containsQ
        (DyadicFractionInterval.into_square ⟨1, 1, 1⟩) ((1 / 2) ^ 2) := by
  refine ⟨by decide, ?_, ?_⟩
  · constructor <;> norm_num [DyadicFractionInterval.containsQ]
  · intro h
    have := h.2
    norm_num [DyadicFractionInterval.into_square, DyadicFractionInterval.contains_zero,
      DyadicFractionInterval.containsQ] at this
    rw [show Int.fdiv 1 2 = 0 from rfl] at this
    norm_num at this

/-! ## Claim C2: `pow` soundness fails (code bug)

Two slips in the source: the swap of the magnitude bounds uses
`base_lower_bound_numer < base_upper_bound_numer` (so for an interval
straddling zero with `|lower| > upper` the larger magnitude ends up in
the slot that is zeroed for even exponents), and the squaring step
shifts `base_lower_bound_numer` twice while never shifting
`base_upper_bound_numer`.  On `[-3, 2]` with exponent 2 the result is
`[0, 4]`, which does not contain `(-3)^2 = 9`. -/

/-- Claim C2 (failing evaluation): `pow` on the interval `[-3, 2]`
(denominator `2^0`) with exponent 2 returns `[0, 4]`, so the result is
not an enclosure of `x^2` for `x = -3` in the input interval. -/
theorem pow_unsound :
    DyadicFractionInterval.pow ⟨-3, 2, 0⟩ 2 = ⟨0, 4, 0⟩ ∧
    DyadicFractionInterval.containsQ ⟨-3, 2, 0⟩ (-3) ∧
    ¬ DyadicFractionInterval.containsQ
        (DyadicFractionInterval.pow ⟨-3, 2, 0⟩ 2) ((-3) ^ 2) := by
  have hloop : DyadicFractionInterval.pow_loop 0 2 0 2 1 (-1) = (0, -4) := by
    rw [DyadicFractionInterval.pow_loop, DyadicFractionInterval.pow_loop]
    norm_num
  have hpow : DyadicFractionInterval.pow ⟨-3, 2, 0⟩ 2 = ⟨0, 4, 0⟩ := by
    rw [DyadicFractionInterval.pow]
    norm_num [DyadicFractionInterval.contains_zero, hloop]
  refine ⟨hpow, ?_, ?_⟩
  · constructor <;> norm_num [DyadicFractionInterval.containsQ]
  · rw [hpow]
    intro h
    have := h.2
    norm_num [DyadicFractionInterval.containsQ] at this

/-- Witness for C6 at the interval `[1, 3]` (denominator `2^0`),
converted up to `2^2` and back, at the contained point `2`. -/
theorem convert_log2_denom_round_trip_witness :
    DyadicFractionInterval.containsQ
      (DyadicFractionInterval.convert_log2_denom (DyadicFractionInterval.convert_log2_denom ⟨1, 3, 0⟩ 2) 0) 2 :=
  convert_log2_denom_round_trip 1 3 0 2 (by norm_num) (by norm_num) 2
    ⟨by norm_num [DyadicFractionInterval.containsQ], by norm_num [DyadicFractionInterval.containsQ]⟩

/-! ## Claim C3: overflow-safety of modular add/mul -/

theorem wrapS_eq_self (W : ℕ) (x : ℤ) (hW : 1 ≤ W)
    (h1 : -(2 ^ (W - 1)) ≤ x) (h2 : x < 2 ^ (W - 1)) : wrapS W x = x := by
  unfold wrapS
  have hW2 : (2 : ℤ) ^ (W - 1) + 2 ^ (W - 1) = 2 ^ W := by
    rw [← two_mul, ← pow_succ']
    congr 1
    omega
  have : (x + 2 ^ (W - 1)) % 2 ^ W = x + 2 ^ (W - 1) :=
    Int.emod_eq_of_lt (by omega) (by omega)
  omega

theorem modular_add_u_eq (w a b m : ℕ) (hw : 1 ≤ w) (hm : 0 < m)
    (hmw : m ≤ 2 ^ w) (ha : a < m) (hb : b < m) :
    modular_add_u w a b m = some ((a + b) % m) := by
  unfold modular_add_u
  rw [if_neg (by omega)]
  have hpow : 2 ^ (w + 1) ≤ 2 ^ (2 * w) := Nat.pow_le_pow_right (by norm_num) (by omega)
  have hwide : (a + b) % 2 ^ (2 * w) = a + b := by
    apply Nat.mod_eq_of_lt
    have : a + b < 2 ^ (w + 1) := by
      have := pow_succ 2 w
      omega
    omega
  simp only [hwide]
  rw [if_pos]
  have := Nat.mod_lt (a + b) hm
  omega

theorem modular_mul_u_eq (w a b m : ℕ) (hw : 1 ≤ w) (hm : 0 < m)
    (hmw : m ≤ 2 ^ w) (ha : a < m) (hb : b < m) :
    modular_mul_u w a b m = some ((a * b) % m) := by
  unfold modular_mul_u
  rw [if_neg (by omega)]
  have hwide : (a * b) % 2 ^ (2 * w) = a * b := by
    apply Nat.mod_eq_of_lt
    calc a * b < m * m := Nat.mul_lt_mul'' ha hb
    _ ≤ 2 ^ w * 2 ^ w := Nat.mul_le_mul hmw hmw
    _ = 2 ^ (2 * w) := by rw [← pow_add, two_mul]
  simp only [hwide]
  rw [if_pos]
  have := Nat.mod_lt (a * b) hm
  omega

theorem modular_add_s_eq (w : ℕ) (a b m : ℤ) (hw : 1 ≤ w) (hm : 0 < m)
    (hmw : m ≤ 2 ^ (w - 1)) (ha : 0 ≤ a) (ha2 : a < m) (hb : 0 ≤ b)
    (hb2 : b < m) : modular_add_s w a b m = some ((a + b) % m) := by
  unfold modular_add_s
  rw [if_neg (by omega)]
  have hW : 1 ≤ 2 * w := by omega
  have hwsub : w - 1 + 1 ≤ 2 * w - 1 + 1 := by omega
  have hpow : (2 : ℤ) ^ w ≤ 2 ^ (2 * w - 1) :=
    pow_le_pow_right (by norm_num) (by omega)
  have hpow2 : (2 : ℤ) ^ (w - 1) + 2 ^ (w - 1) = 2 ^ w := by
    rw [← two_mul, ← pow_succ']
    congr 1
    omega
  have hwide : wrapS (2 * w) (a + b) = a + b := by
    apply wrapS_eq_self _ _ hW (by omega)
    omega
  have htm : Int.tmod (wrapS (2 * w) (a + b)) m = (a + b) % m := by
    rw [hwide]
    exact Int.tmod_eq_emod (by omega) (by omega)
  rw [htm]
  have hr1 := Int.emod_nonneg (a + b) (by omega : m ≠ 0)
  have hr2 := Int.emod_lt_of_pos (a + b) hm
  rw [if_pos (by constructor <;> omega)]

theorem modular_mul_s_eq (w : ℕ) (a b m : ℤ) (hw : 1 ≤ w) (hm : 0 < m)
    (hmw : m ≤ 2 ^ (w - 1)) (ha : 0 ≤ a) (ha2 : a < m) (hb : 0 ≤ b)
    (hb2 : b < m) : modular_mul_s w a b m = some ((a * b) % m) := by
  unfold modular_mul_s
  rw [if_neg (by omega)]
  have hW : 1 ≤ 2 * w := by omega
  have hpow2 : (2 : ℤ) ^ (w - 1) + 2 ^ (w - 1) = 2 ^ w := by
    rw [← two_mul, ← pow_succ']
    congr 1
    omega
  have hprod : a * b < 2 ^ (2 * w - 1) := by
    have h1 : a * b ≤ (m - 1) * (m - 1) := by nlinarith
    have h2 : (m - 1) * (m - 1) < 2 ^ (w - 1) * 2 ^ (w - 1) := by nlinarith
    have h3 : (2 : ℤ) ^ (w - 1) * 2 ^ (w - 1) = 2 ^ (w - 1 + (w - 1)) := by
      rw [pow_add]
    have h4 : (2 : ℤ) ^ (w - 1 + (w - 1)) ≤ 2 ^ (2 * w - 1) :=
      pow_le_pow_right (by norm_num) (by omega)
    omega
  have hab : 0 ≤ a * b := mul_nonneg ha hb
  have ht0 : (0 : ℤ) ≤ 2 ^ (2 * w - 1) := by positivity
  have hwide : wrapS (2 * w) (a * b) = a * b :=
    wrapS_eq_self _ _ hW (by omega) hprod
  have htm : Int.tmod (wrapS (2 * w) (a * b)) m = (a * b) % m := by
    rw [hwide]
    exact Int.tmod_eq_emod hab (by omega)
  rw [htm]
  have hr1 := Int.emod_nonneg (a * b) (by omega : m ≠ 0)
  have hr2 := Int.emod_lt_of_pos (a * b) hm
  rw [if_pos (by constructor <;> omega)]

theorem modular_add_u128_eq (a b m : ℕ) (hm : 0 < m) (hmw : m ≤ 2 ^ 128) :
    modular_add_u128 a b m = some ((a + b) % m) := by
  unfold modular_add_u128
  rw [if_neg (by omega)]
  have := Nat.mod_lt (a + b) hm
  rw [if_pos (by omega)]

theorem modular_mul_u128_eq (a b m : ℕ) (hm : 0 < m) (hmw : m ≤ 2 ^ 128) :
    modular_mul_u128 a b m = some ((a * b) % m) := by
  unfold modular_mul_u128
  rw [if_neg (by omega)]
  have := Nat.mod_lt (a * b) hm
  rw [if_pos (by omega)]

theorem modular_add_i128_eq (a b m : ℤ) (hm : 0 < m) (hmw : m ≤ 2 ^ 127)
    (ha : 0 ≤ a) (hb : 0 ≤ b) : modular_add_i128 a b m = some ((a + b) % m) := by
  unfold modular_add_i128
  rw [if_neg (by omega), Int.tmod_eq_emod (by omega) (by omega)]
  have hr1 := Int.emod_nonneg (a + b) (by omega : m ≠ 0)
  have hr2 := Int.emod_lt_of_pos (a + b) hm
  have ht0 : (0 : ℤ) ≤ 2 ^ 127 := by positivity
  rw [if_pos (by constructor <;> omega)]

theorem modular_mul_i128_eq (a b m : ℤ) (hm : 0 < m) (hmw : m ≤ 2 ^ 127)
    (ha : 0 ≤ a) (hb : 0 ≤ b) : modular_mul_i128 a b m = some ((a * b) % m) := by
  unfold modular_mul_i128
  rw [if_neg (by omega), Int.tmod_eq_emod (mul_nonneg ha hb) (by omega)]
  have hr1 := Int.emod_nonneg (a * b) (by omega : m ≠ 0)
  have hr2 := Int.emod_lt_of_pos (a * b) hm
  have ht0 : (0 : ℤ) ≤ 2 ^ 127 := by positivity
  rw [if_pos (by constructor <;> omega)]

/-- Claim C3: for every supported fixed-width integer type with the
largest prime representable in that width as the modulus, and all
residues `a, b` in `[0, modulus)`, the widened-intermediate
`modular_add` and `modular_mul` return exactly the arbitrary-precision
reference value `(a + b) % m` resp. `(a * b) % m` — no overflow-induced
deviation anywhere in the residue range (`usize`/`isize` are modelled at
the 64-bit width). -/
theorem modular_add_mul_exact :
    (∀ a b : ℕ, a < 251 → b < 251 →
      modular_add_u8 a b 251 = some ((a + b) % 251) ∧
      modular_mul_u8 a b 251 = some ((a * b) % 251)) ∧
    (∀ a b : ℕ, a < 65521 → b < 65521 →
      modular_add_u16 a b 65521 = some ((a + b) % 65521) ∧
      modular_mul_u16 a b 65521 = some ((a * b) % 65521)) ∧
    (∀ a b : ℕ, a < 4294967291 → b < 4294967291 →
      modular_add_u32 a b 4294967291 = some ((a + b) % 4294967291) ∧
      modular_mul_u32 a b 4294967291 = some ((a * b) % 4294967291)) ∧
    (∀ a b : ℕ, a < 18446744073709551557 → b < 18446744073709551557 →
      modular_add_u64 a b 18446744073709551557 = some ((a + b) % 18446744073709551557) ∧
      modular_mul_u64 a b 18446744073709551557 = some ((a * b) % 18446744073709551557)) ∧
    (∀ a b : ℕ, a < 18446744073709551557 → b < 18446744073709551557 →
      modular_add_usize a b 18446744073709551557 = some ((a + b) % 18446744073709551557) ∧
      modular_mul_usize a b 18446744073709551557 = some ((a * b) % 18446744073709551557)) ∧
    (∀ a b : ℕ, a < 340282366920938463463374607431768211297 →
      b < 340282366920938463463374607431768211297 →
      modular_add_u128 a b 340282366920938463463374607431768211297 =
        some ((a + b) % 340282366920938463463374607431768211297) ∧
      modular_mul_u128 a b 340282366920938463463374607431768211297 =
        some ((a * b) % 340282366920938463463374607431768211297)) ∧
    (∀ a b : ℤ, 0 ≤ a → a < 127 → 0 ≤ b → b < 127 →
      modular_add_i8 a b 127 = some ((a + b) % 127) ∧
      modular_mul_i8 a b 127 = some ((a * b) % 127)) ∧
    (∀ a b : ℤ, 0 ≤ a → a < 32749 → 0 ≤ b → b < 32749 →
      modular_add_i16 a b 32749 = some ((a + b) % 32749) ∧
      modular_mul_i16 a b 32749 = some ((a * b) % 32749)) ∧
    (∀ a b : ℤ, 0 ≤ a → a < 2147483647 → 0 ≤ b → b < 2147483647 →
      modular_add_i32 a b 2147483647 = some ((a + b) % 2147483647) ∧
      modular_mul_i32 a b 2147483647 = some ((a * b) % 2147483647)) ∧
    (∀ a b : ℤ, 0 ≤ a → a < 9223372036854775783 → 0 ≤ b → b < 9223372036854775783 →
      modular_add_i64 a b 9223372036854775783 = some ((a + b) % 9223372036854775783) ∧
      modular_mul_i64 a b 9223372036854775783 = some ((a * b) % 9223372036854775783)) ∧
    (∀ a b : ℤ, 0 ≤ a → a < 9223372036854775783 → 0 ≤ b → b < 9223372036854775783 →
      modular_add_isize a b 9223372036854775783 = some ((a + b) % 9223372036854775783) ∧
      modular_mul_isize a b 9223372036854775783 = some ((a * b) % 9223372036854775783)) ∧
    (∀ a b : ℤ, 0 ≤ a → a < 170141183460469231731687303715884105727 →
      0 ≤ b → b < 170141183460469231731687303715884105727 →
      modular_add_i128 a b 170141183460469231731687303715884105727 =
        some ((a + b) % 170141183460469231731687303715884105727) ∧
      modular_mul_i128 a b 170141183460469231731687303715884105727 =
        some ((a * b) % 170141183460469231731687303715884105727)) := by
  refine ⟨?_, ?_, ?_, ?_, ?_, ?_, ?_, ?_, ?_, ?_, ?_, ?_⟩
  · exact fun a b ha hb =>
      ⟨modular_add_u_eq 8 a b 251 (by norm_num) (by norm_num) (by norm_num) ha hb,
       modular_mul_u_eq 8 a b 251 (by norm_num) (by norm_num) (by norm_num) ha hb⟩
  · exact fun a b ha hb =>
      ⟨modular_add_u_eq 16 a b 65521 (by norm_num) (by norm_num) (by norm_num) ha hb,
       modular_mul_u_eq 16 a b 65521 (by norm_num) (by norm_num) (by norm_num) ha hb⟩
  · exact fun a b ha hb =>
      ⟨modular_add_u_eq 32 a b _ (by norm_num) (by norm_num) (by norm_num) ha hb,
       modular_mul_u_eq 32 a b _ (by norm_num) (by norm_num) (by norm_num) ha hb⟩
  · exact fun a b ha hb =>
      ⟨modular_add_u_eq 64 a b _ (by norm_num) (by norm_num) (by norm_num) ha hb,
       modular_mul_u_eq 64 a b _ (by norm_num) (by norm_num) (by norm_num) ha hb⟩
  · exact fun a b ha hb =>
      ⟨modular_add_u_eq 64 a b _ (by norm_num) (by norm_num) (by norm_num) ha hb,
       modular_mul_u_eq 64 a b _ (by norm_num) (by norm_num) (by norm_num) ha hb⟩
  · exact fun a b ha hb =>
      ⟨modular_add_u128_eq a b _ (by norm_num) (by norm_num),
       modular_mul_u128_eq a b _ (by norm_num) (by norm_num)⟩
  · exact fun a b ha ha2 hb hb2 =>
      ⟨modular_add_s_eq 8 a b 127 (by norm_num) (by norm_num) (by norm_num) ha ha2 hb hb2,
       modular_mul_s_eq 8 a b 127 (by norm_num) (by norm_num) (by norm_num) ha ha2 hb hb2⟩
  · exact fun a b ha ha2 hb hb2 =>
      ⟨modular_add_s_eq 16 a b _ (by norm_num) (by norm_num) (by norm_num) ha ha2 hb hb2,
       modular_mul_s_eq 16 a b _ (by norm_num) (by norm_num) (by norm_num) ha ha2 hb hb2⟩
  · exact fun a b ha ha2 hb hb2 =>
      ⟨modular_add_s_eq 32 a b _ (by norm_num) (by norm_num) (by norm_num) ha ha2 hb hb2,
       modular_mul_s_eq 32 a b _ (by norm_num) (by norm_num) (by norm_num) ha ha2 hb hb2⟩
  · exact fun a b ha ha2 hb hb2 =>
      ⟨modular_add_s_eq 64 a b _ (by norm_num) (by norm_num) (by norm_num) ha ha2 hb hb2,
       modular_mul_s_eq 64 a b _ (by norm_num) (by norm_num) (by norm_num) ha ha2 hb hb2⟩
  · exact fun a b ha ha2 hb hb2 =>
      ⟨modular_add_s_eq 64 a b _ (by norm_num) (by norm_num) (by norm_num) ha ha2 hb hb2,
       modular_mul_s_eq 64 a b _ (by norm_num) (by norm_num) (by norm_num) ha ha2 hb hb2⟩
  · exact fun a b ha ha2 hb hb2 =>
      ⟨modular_add_i128_eq a b _ (by norm_num) (by norm_num) ha hb,
       modular_mul_i128_eq a b _ (by norm_num) (by norm_num) ha hb⟩

/-- Witness for C3 at `a = 250`, `b = 250` over `u8` with modulus 251. -/
theorem modular_add_mul_exact_witness :
    modular_add_u8 250 250 251 = some ((250 + 250) % 251) :=
  (modular_add_mul_exact.1 250 250 (by norm_num) (by norm_num)).1

/-! ## Claim C8: negation identity -/

/-- Claim C8: for every nonzero modulus `m` and every residue
`x ∈ [0, m)`, adding `x` to its modular negation (`modulus - value`,
with a zero input forced to zero) yields zero, both for the
arbitrary-precision instantiation and for every fixed unsigned width. -/
theorem modular_neg_identity :
    (∀ m x : ℤ, 0 < m → 0 ≤ x → x < m →
      modular_add_big x (modular_neg_big x m) m = some 0) ∧
    (∀ w m x : ℕ, 1 ≤ w → 0 < m → m ≤ 2 ^ w → x < m →
      modular_add_u w x (modular_neg_u x m) m = some 0) := by
  constructor
  · intro m x hm hx hxm
    unfold modular_add_big modular_neg_big
    rw [if_neg (by omega)]
    split
    case isTrue h =>
      have hx0 : x = 0 := by omega
      subst hx0
      rw [Int.tmod_eq_emod (by omega) (by omega)]
      simp
    case isFalse h =>
      have hsum : x + (m - x) = m := by ring
      rw [hsum, Int.tmod_eq_emod (by omega) (by omega), Int.emod_self]
  · intro w m x hw hm hmw hxm
    have hneg : modular_neg_u x m < m := by
      unfold modular_neg_u
      split <;> omega
    rw [modular_add_u_eq w x (modular_neg_u x m) m hw hm hmw hxm hneg]
    have hz : (x + modular_neg_u x m) % m = 0 := by
      unfold modular_neg_u
      split
      case isTrue h =>
        have hx0 : x = 0 := by omega
        simp [hx0, Nat.zero_mod]
      case isFalse h =>
        have hsum : x + (m - x) = m := by omega
        rw [hsum, Nat.mod_self]
    rw [hz]

/-- Witness for C8 at `x = 3`, `m = 7` (arbitrary precision) . -/
theorem modular_neg_identity_witness :
    modular_add_big 3 (modular_neg_big 3 7) 7 = some 0 :=
  modular_neg_identity.1 7 3 (by norm_num) (by norm_num) (by norm_num)

/-! ## Claim C10: zero modulus faults in add/mul, passes through reduce -/

/-- Claim C10: for every integer value type, `modular_add` and
`modular_mul` with a zero modulus evaluate a remainder by zero and fault
(modelled as `none`) instead of behaving as plain unreduced arithmetic;
only `modular_reduce` special-cases a zero modulus by returning the
value unchanged. -/
theorem zero_modulus_behavior :
    (∀ a b : ℤ, modular_add_big a b 0 = none ∧ modular_mul_big a b 0 = none) ∧
    (∀ w a b : ℕ, modular_add_u w a b 0 = none ∧ modular_mul_u w a b 0 = none) ∧
    (∀ w : ℕ, ∀ a b : ℤ, modular_add_s w a b 0 = none ∧ modular_mul_s w a b 0 = none) ∧
    (∀ a b : ℕ, modular_add_u128 a b 0 = none ∧ modular_mul_u128 a b 0 = none) ∧
    (∀ a b : ℤ, modular_add_i128 a b 0 = none ∧ modular_mul_i128 a b 0 = none) ∧
    (∀ v : ℕ, modular_reduce_u v 0 = v) ∧
    (∀ v : ℤ, modular_reduce_big v 0 = v) := by
  refine ⟨?_, ?_, ?_, ?_, ?_, ?_, ?_⟩
  · intro a b
    constructor <;> simp [modular_add_big, modular_mul_big]
  · intro w a b
    constructor <;> simp [modular_add_u, modular_mul_u]
  · intro w a b
    constructor <;> simp [modular_add_s, modular_mul_s]
  · intro a b
    constructor <;> simp [modular_add_u128, modular_mul_u128]
  · intro a b
    constructor <;> simp [modular_add_i128, modular_mul_i128]
  · intro v
    simp [modular_reduce_u]
  · intro v
    simp [modular_reduce_big]

/-! ## Claim C4: checked division and inversion -/

theorem gcd_emod (a b : ℤ) (hb : b ≠ 0) : Int.gcd b (a % b) = Int.gcd a b := by
  apply Nat.dvd_antisymm
  · have h1 : (↑(Int.gcd b (a % b)) : ℤ) ∣ b := Int.gcd_dvd_left
    have h2 : (↑(Int.gcd b (a % b)) : ℤ) ∣ a % b := Int.gcd_dvd_right
    have h3 : (↑(Int.gcd b (a % b)) : ℤ) ∣ a := by
      have hsum := dvd_add h2 (h1.mul_right (a / b))
      have hd : a % b + b * (a / b) = a := by
        have := Int.emod_def a b
        linarith
      rwa [hd] at hsum
    exact Int.natCast_dvd_natCast.mp (Int.dvd_gcd h3 h1)
  · have h1 : (↑(Int.gcd a b) : ℤ) ∣ a := Int.gcd_dvd_left
    have h2 : (↑(Int.gcd a b) : ℤ) ∣ b := Int.gcd_dvd_right
    have h3 : (↑(Int.gcd a b) : ℤ) ∣ a % b := by
      rw [Int.emod_def]
      exact dvd_sub h1 (h2.mul_right _)
    exact Int.natCast_dvd_natCast.mp (Int.dvd_gcd h2 h3)

theorem egcd_zero (a : ℤ) : egcd a 0 = (a, 1, 0) := by
  rw [egcd]
  simp

theorem egcd_spec_aux :
    ∀ (n : ℕ) (b a : ℤ), b.natAbs ≤ n → 0 ≤ a → 0 ≤ b →
      (egcd a b).1 = (Int.gcd a b : ℤ) ∧
      (egcd a b).2.1 * a + (egcd a b).2.2 * b = (egcd a b).1 := by
  intro n
  induction n with
  | zero =>
    intro b a hbn ha hb
    have hb0 : b = 0 := by omega
    subst hb0
    rw [egcd_zero]
    constructor
    · simp [Int.gcd_zero_right, Int.natAbs_of_nonneg ha]
    · simp
  | succ n ih =>
    intro b a hbn ha hb
    by_cases hb0 : b = 0
    · subst hb0
      rw [egcd_zero]
      constructor
      · simp [Int.gcd_zero_right, Int.natAbs_of_nonneg ha]
      · simp
    · have hbpos : 0 < b := lt_of_le_of_ne hb (Ne.symm hb0)
      have hr1 : 0 ≤ a % b := Int.emod_nonneg a hb0
      have hr2 : a % b < b := Int.emod_lt_of_pos a hbpos
      have hrn : (a % b).natAbs ≤ n := by omega
      obtain ⟨ihg, ihbez⟩ := ih (a % b) b hrn hb hr1
      have hegcd : egcd a b =
          ((egcd b (a % b)).1, (egcd b (a % b)).2.2,
           (egcd b (a % b)).2.1 - a / b * (egcd b (a % b)).2.2) := by
        rw [egcd]
        simp [hb0]
      rw [hegcd]
      constructor
      · rw [ihg, gcd_emod a b hb0]
      · have hmod := Int.emod_def a b
        have hlin : (egcd b (a % b)).2.2 * a +
            ((egcd b (a % b)).2.1 - a / b * (egcd b (a % b)).2.2) * b =
            (egcd b (a % b)).2.1 * b + (egcd b (a % b)).2.2 * (a % b) := by
          rw [hmod]
          ring
        rw [hlin, ihbez]

theorem egcd_spec (a b : ℤ) (ha : 0 ≤ a) (hb : 0 ≤ b) :
    (egcd a b).1 = (Int.gcd a b : ℤ) ∧
    (egcd a b).2.1 * a + (egcd a b).2.2 * b = (egcd a b).1 :=
  egcd_spec_aux b.natAbs b a le_rfl ha hb

/-- Claim C4 counterexample: at modulus 1 with residues `a = 0`, `b = 0`,
`checked_div` is empty (the zero-value short-circuit in
`checked_inverse` fires first) even though `gcd(0, 1) = 1`, so the
claimed equivalence fails as stated. -/
theorem checked_div_gcd_one_empty :
    ¬ ((checked_div 0 0 1).isSome ↔ Int.gcd 0 1 = 1) := by decide

/-- Claim C4 (amended): for every modulus `m > 0` and residues
`a, b ∈ [0, m)`, `checked_div a b m` is non-empty iff `b ≠ 0` and
`gcd(b, m) = 1` (for `b ≠ 0` this is the claimed gcd condition; `b = 0`
is always empty through the zero-value short-circuit, even in the
degenerate case `m = 1` where `gcd(0, 1) = 1`), and whenever it returns
a quotient `q`, `(q * b) % m = a`. -/
theorem checked_div_spec (m a b : ℤ) (hm : 0 < m) (ha : 0 ≤ a) (ha2 : a < m)
    (hb : 0 ≤ b) (hb2 : b < m) :
    ((checked_div a b m).isSome ↔ b ≠ 0 ∧ Int.gcd b m = 1) ∧
    (∀ q, checked_div a b m = some q → q * b % m = a) := by
  by_cases hb0 : b = 0
  · subst hb0
    unfold checked_div checked_inverse
    simp
  · obtain ⟨hg, hbez⟩ := egcd_spec b m hb hm.le
    by_cases hg1 : (egcd b m).1 = 1
    · have hgcd : Int.gcd b m = 1 := by
        have hc := hg
        rw [hg1] at hc
        exact_mod_cast hc.symm
      have hxm : 0 ≤ (egcd b m).2.1 % m := Int.emod_nonneg _ (by omega)
      have hinv : checked_inverse b m = some ((egcd b m).2.1 % m) := by
        unfold checked_inverse mi_new modular_reduce_big
        rw [if_neg hb0, if_pos hg1, if_neg (by omega)]
        rw [Int.fmod_eq_emod _ hm.le]
      have hdiv : checked_div a b m =
          some (Int.tmod (a * ((egcd b m).2.1 % m)) m) := by
        unfold checked_div modular_mul_big
        rw [hinv, Option.some_bind, if_neg (by omega)]
      constructor
      · rw [hdiv]
        simp [hb0, hgcd]
      · intro q hq
        rw [hdiv] at hq
        have hqe : Int.tmod (a * ((egcd b m).2.1 % m)) m = q := Option.some.inj hq
        have htm : Int.tmod (a * ((egcd b m).2.1 % m)) m =
            a * ((egcd b m).2.1 % m) % m :=
          Int.tmod_eq_emod (mul_nonneg ha hxm) hm.le
        have hq2 : q = a * ((egcd b m).2.1 % m) % m := by
          rw [← hqe, htm]
        have e0 : Int.ModEq m q (a * ((egcd b m).2.1 % m)) := by
          show q % m = _ % m
          rw [hq2]
          exact Int.emod_emod_of_dvd _ (dvd_refl m)
        have e1 : Int.ModEq m ((egcd b m).2.1 % m) (egcd b m).2.1 := by
          show _ % m = _ % m
          exact Int.emod_emod_of_dvd _ (dvd_refl m)
        have e2 : Int.ModEq m q (a * (egcd b m).2.1) :=
          e0.trans (Int.ModEq.mul_left a e1)
        have e3 : Int.ModEq m (q * b) (a * (egcd b m).2.1 * b) :=
          e2.mul_right b
        have e4 : a * (egcd b m).2.1 * b =
            a * (1 - (egcd b m).2.2 * m) := by
          have hx : (egcd b m).2.1 * b = 1 - (egcd b m).2.2 * m := by
            rw [hg1] at hbez
            linarith
          calc a * (egcd b m).2.1 * b = a * ((egcd b m).2.1 * b) := by ring
          _ = a * (1 - (egcd b m).2.2 * m) := by rw [hx]
        have e5 : Int.ModEq m (a * (1 - (egcd b m).2.2 * m)) a := by
          show _ % m = a % m
          have hrw : a * (1 - (egcd b m).2.2 * m) =
              a + m * (-(a * (egcd b m).2.2)) := by ring
          rw [hrw, Int.add_mul_emod_self_left]
        rw [e4] at e3
        have e6 : Int.ModEq m (q * b) a := e3.trans e5
        have e7 : q * b % m = a % m := e6
        rw [e7, Int.emod_eq_of_lt ha ha2]
    · have hgcd : Int.gcd b m ≠ 1 := by
        intro hc
        apply hg1
        rw [hg]
        exact_mod_cast hc
      have hinv : checked_inverse b m = none := by
        unfold checked_inverse
        rw [if_neg hb0, if_neg hg1]
      unfold checked_div
      rw [hinv]
      simp [hgcd]

/-- Witness for the amended C4 at `m = 5`, `a = 2`, `b = 3`. -/
theorem checked_div_spec_witness :
    ((checked_div 2 3 5).isSome ↔ (3 : ℤ) ≠ 0 ∧ Int.gcd 3 5 = 1) ∧
    (∀ q, checked_div 2 3 5 = some q → q * 3 % 5 = 2) :=
  checked_div_spec 5 2 3 (by norm_num) (by norm_num) (by norm_num)
    (by norm_num) (by norm_num)

/-! ## Claim C7: canonical residues -/

theorem pow_modular_reduce_loop_lt (w m : ℕ) (hw : 1 ≤ w) (hm : 0 < m)
    (hmw : m ≤ 2 ^ w) :
    ∀ (e : ℕ) (base : ℕ) (retval : Option ℕ), 0 < e → base < m →
      (∀ r, retval = some r → r < m) →
      ∃ out, pow_modular_reduce_loop w m base retval e = some out ∧ out < m := by
  intro e
  induction e using Nat.strong_induction_on with
  | _ e ih =>
    intro base retval he hbase hret
    have hstep : ∃ rv2,
        (if e % 2 = 1 then pow_loop_mul_retval w m base retval
         else some retval) = some rv2 ∧
        (∀ r, rv2 = some r → r < m) ∧
        (e % 2 = 1 → ∃ r, rv2 = some r) := by
      by_cases hodd : e % 2 = 1
      · rw [if_pos hodd]
        cases hrv : retval with
        | none =>
          refine ⟨some base, ?_, ?_, ?_⟩
          · rw [pow_loop_mul_retval]
          · intro r hr
            cases hr
            exact hbase
          · exact fun _ => ⟨base, rfl⟩
        | some r =>
          have hrm : r < m := hret r hrv
          have hmul := modular_mul_u_eq w r base m hw hm hmw hrm hbase
          refine ⟨some (r * base % m), ?_, ?_, ?_⟩
          · rw [pow_loop_mul_retval, hmul]
            rfl
          · intro r2 hr2
            cases hr2
            exact Nat.mod_lt _ hm
          · exact fun _ => ⟨r * base % m, rfl⟩
      · rw [if_neg hodd]
        exact ⟨retval, rfl, hret, fun hc => absurd hc hodd⟩
    obtain ⟨rv2, hrv2, hrv2lt, hrv2odd⟩ := hstep
    rw [pow_modular_reduce_loop, hrv2]
    by_cases hhalf : e / 2 = 0
    · have he1 : e = 1 := by omega
      obtain ⟨r, hr⟩ := hrv2odd (by omega)
      subst hr
      simp only [dif_pos hhalf]
      exact ⟨r, rfl, hrv2lt r rfl⟩
    · have hmul := modular_mul_u_eq w base base m hw hm hmw hbase hbase
      simp only [dif_neg hhalf, hmul]
      exact ih (e / 2) (by omega) (base * base % m) rv2 (by omega)
        (Nat.mod_lt _ hm) hrv2lt

/-- Claim C7 counterexample: `pow_modular_reduce` with exponent 0 and
the nonzero modulus 1 returns the unreduced multiplicative identity 1,
which is not the canonical least-nonnegative residue (the canonical
value of every integer modulo 1 is 0). -/
theorem pow_modular_reduce_zero_exponent_unreduced :
    pow_modular_reduce_u 8 0 0 1 = some 1 ∧ ¬ (1 < 1) := by decide

/-- Claim C7 (amended): for every nonzero modulus, `new` reduces its
value to the canonical residue in `[0, m)`, and `modular_add`,
`modular_sub`, `modular_mul`, `modular_neg`, `checked_inverse`, and
`pow_modular_reduce` with exponent at least 1 all return canonical
residues in `[0, m)`; the one exception is `pow_modular_reduce` with
exponent 0, which returns the unreduced identity 1 (outside `[0, m)`
exactly when `m = 1`). -/
theorem modular_integer_canonical :
    (∀ v m : ℤ, 0 < m → 0 ≤ mi_new v m ∧ mi_new v m < m) ∧
    (∀ w m a b : ℕ, 1 ≤ w → 0 < m → m ≤ 2 ^ w → a < m → b < m →
      (∃ r, modular_add_u w a b m = some r ∧ r < m) ∧
      (∃ r, modular_sub_u w a b m = some r ∧ r < m) ∧
      (∃ r, modular_mul_u w a b m = some r ∧ r < m) ∧
      modular_neg_u a m < m) ∧
    (∀ m b q : ℤ, 0 < m → checked_inverse b m = some q → 0 ≤ q ∧ q < m) ∧
    (∀ w m x e : ℕ, 1 ≤ w → 0 < m → m ≤ 2 ^ w → 1 ≤ e →
      ∃ r, pow_modular_reduce_u w x e m = some r ∧ r < m) ∧
    (∀ w m x : ℕ, pow_modular_reduce_u w x 0 m = some 1) := by
  have hnew : ∀ v m : ℤ, 0 < m → 0 ≤ mi_new v m ∧ mi_new v m < m := by
    intro v m hm
    unfold mi_new modular_reduce_big
    rw [if_neg (by omega), Int.fmod_eq_emod _ hm.le]
    exact ⟨Int.emod_nonneg v (by omega), Int.emod_lt_of_pos v hm⟩
  refine ⟨hnew, ?_, ?_, ?_, ?_⟩
  · intro w m a b hw hm hmw ha hb
    have hneg : modular_neg_u b m < m := by
      unfold modular_neg_u
      split <;> omega
    have hnega : modular_neg_u a m < m := by
      unfold modular_neg_u
      split <;> omega
    refine ⟨⟨(a + b) % m, modular_add_u_eq w a b m hw hm hmw ha hb,
        Nat.mod_lt _ hm⟩, ?_, ?_, hnega⟩
    · exact ⟨(a + modular_neg_u b m) % m,
        modular_add_u_eq w a (modular_neg_u b m) m hw hm hmw ha hneg,
        Nat.mod_lt _ hm⟩
    · exact ⟨(a * b) % m, modular_mul_u_eq w a b m hw hm hmw ha hb,
        Nat.mod_lt _ hm⟩
  · intro m b q hm hq
    unfold checked_inverse at hq
    by_cases hb0 : b = 0
    · rw [if_pos hb0] at hq
      cases hq
    · rw [if_neg hb0] at hq
      by_cases hg1 : (egcd b m).1 = 1
      · rw [if_pos hg1] at hq
        have hqe := Option.some.inj hq
        rw [← hqe]
        exact hnew _ m hm
      · rw [if_neg hg1] at hq
        cases hq
  · intro w m x e hw hm hmw he
    unfold pow_modular_reduce_u
    rw [if_neg (by omega)]
    have hbase : modular_reduce_u x m < m := by
      unfold modular_reduce_u
      rw [if_neg (by omega)]
      exact Nat.mod_lt _ hm
    by_cases he1 : e = 1
    · rw [if_pos he1]
      exact ⟨modular_reduce_u x m, rfl, hbase⟩
    · rw [if_neg he1]
      exact pow_modular_reduce_loop_lt w m hw hm hmw e (modular_reduce_u x m)
        none (by omega) hbase (by intro r hr; cases hr)
  · intro w m x
    unfold pow_modular_reduce_u
    rw [if_pos rfl]

/-- Witness for the amended C7: `new` reduces the value `-9` modulo 7
into the canonical range. -/
theorem modular_integer_canonical_witness :
    0 ≤ mi_new (-9) 7 ∧ mi_new (-9) 7 < 7 :=
  modular_integer_canonical.1 (-9) 7 (by norm_num)

/-! ## Claim C9: the `lower ≤ upper` interval invariant -/

/-- The interval invariant `lower_bound_numer ≤ upper_bound_numer`. -/
def ordered (i : DFI) : Prop :=
  i.lower_bound_numer ≤ i.upper_bound_numer

instance (i : DFI) : Decidable (ordered i) := by
  unfold ordered; infer_instance

theorem fdiv_pow_nonneg (x : ℤ) (n : ℕ) (hx : 0 ≤ x) :
    0 ≤ Int.fdiv x (2 ^ n) := by
  rw [Int.fdiv_eq_ediv _ (by positivity)]
  exact Int.ediv_nonneg hx (by positivity)

theorem fdiv_pow_mono (x y : ℤ) (n : ℕ) (h : x ≤ y) :
    Int.fdiv x (2 ^ n) ≤ Int.fdiv y (2 ^ n) := by
  rw [Int.fdiv_eq_ediv _ (by positivity), Int.fdiv_eq_ediv _ (by positivity)]
  exact Int.ediv_le_ediv (by positivity) h

theorem do_add_sub_mul_ordered (op : ℤ → ℤ → ℤ → ℤ → ℕ → ℤ × ℤ)
    (hop : ∀ ll lu rl ru n, ll ≤ lu → rl ≤ ru →
      (op ll lu rl ru n).1 ≤ (op ll lu rl ru n).2)
    (lhs rhs : DFI) (hl : ordered lhs) (hr : ordered rhs) :
    ordered (DyadicFractionInterval.do_add_sub_mul op lhs rhs) := by
  unfold ordered at *
  unfold DyadicFractionInterval.do_add_sub_mul
  split
  · dsimp only
    exact hop _ _ _ _ _
      (mul_le_mul_of_nonneg_right hl (by positivity)) hr
  · dsimp only
    exact hop _ _ _ _ _ hl
      (mul_le_mul_of_nonneg_right hr (by positivity))

theorem add_ordered (lhs rhs : DFI) (hl : ordered lhs) (hr : ordered rhs) :
    ordered (DyadicFractionInterval.add lhs rhs) := by
  apply do_add_sub_mul_ordered _ _ _ _ hl hr
  intro ll lu rl ru n h1 h2
  dsimp only
  omega

theorem sub_ordered (lhs rhs : DFI) (hl : ordered lhs) (hr : ordered rhs) :
    ordered (DyadicFractionInterval.sub lhs rhs) := by
  apply do_add_sub_mul_ordered _ _ _ _ hl hr
  intro ll lu rl ru n h1 h2
  dsimp only
  omega

theorem mul_ordered (lhs rhs : DFI) (hl : ordered lhs) (hr : ordered rhs) :
    ordered (DyadicFractionInterval.mul lhs rhs) := by
  apply do_add_sub_mul_ordered _ _ _ _ hl hr
  intro ll lu rl ru n h1 h2
  dsimp only
  apply fdiv_le_ceil
  calc min (min (ll * rl) (ll * ru)) (min (lu * rl) (lu * ru))
      ≤ ll * rl := le_trans (min_le_left _ _) (min_le_left _ _)
  _ ≤ max (ll * rl) (ll * ru) := le_max_left _ _
  _ ≤ max (max (ll * rl) (ll * ru)) (max (lu * rl) (lu * ru)) := le_max_left _ _

theorem mul_int_ordered (lhs : DFI) (rhs : ℤ) (hl : ordered lhs) :
    ordered (DyadicFractionInterval.mul_int lhs rhs) := by
  unfold ordered at *
  unfold DyadicFractionInterval.mul_int
  split
  case isTrue h => dsimp only; nlinarith
  case isFalse h => dsimp only; nlinarith

theorem mul_ratio_ordered (lhs : DFI) (rhs : ℚ) (hl : ordered lhs) :
    ordered (DyadicFractionInterval.mul_ratio lhs rhs) := by
  unfold ordered at *
  unfold DyadicFractionInterval.mul_ratio
  split
  case isTrue h =>
    dsimp only
    have hmul : rhs * lhs.upper_bound_numer ≤ rhs * lhs.lower_bound_numer := by
      apply mul_le_mul_of_nonpos_left _ h.le
      exact_mod_cast hl
    exact le_trans (Int.floor_le_floor hmul) (Int.floor_le_ceil _)
  case isFalse h =>
    dsimp only
    have hmul : rhs * lhs.lower_bound_numer ≤ rhs * lhs.upper_bound_numer := by
      apply mul_le_mul_of_nonneg_left _ (not_lt.mp h)
      exact_mod_cast hl
    exact le_trans (Int.floor_le_floor hmul) (Int.floor_le_ceil _)

theorem div_int_ordered (lhs : DFI) (rhs : ℤ) (j : DFI) (hl : ordered lhs)
    (hj : DyadicFractionInterval.div_int lhs rhs = some j) : ordered j := by
  unfold DyadicFractionInterval.div_int at hj
  by_cases h0 : rhs = 0
  · rw [if_pos h0] at hj
    cases hj
  · rw [if_neg h0] at hj
    have := Option.some.inj hj
    rw [← this]
    exact mul_ratio_ordered lhs _ hl

theorem div_ratio_ordered (lhs : DFI) (rhs : ℚ) (j : DFI) (hl : ordered lhs)
    (hj : DyadicFractionInterval.div_ratio lhs rhs = some j) : ordered j := by
  unfold DyadicFractionInterval.div_ratio at hj
  by_cases h0 : rhs = 0
  · rw [if_pos h0] at hj
    cases hj
  · rw [if_neg h0] at hj
    have := Option.some.inj hj
    rw [← this]
    exact mul_ratio_ordered lhs _ hl

theorem into_square_ordered (i : DFI) (hi : ordered i) :
    ordered (DyadicFractionInterval.into_square i) := by
  unfold ordered at *
  unfold DyadicFractionInterval.into_square
  dsimp only
  set mn := if i.lower_bound_numer < 0 then -i.lower_bound_numer else i.lower_bound_numer with hmn
  set mx := if i.upper_bound_numer < 0 then -i.upper_bound_numer else i.upper_bound_numer with hmx
  have hmn0 : 0 ≤ mn := by rw [hmn]; split <;> omega
  have hmx0 : 0 ≤ mx := by rw [hmx]; split <;> omega
  set p := if mx < mn then (mx, mn) else (mn, mx) with hp
  have hp1 : 0 ≤ p.1 ∧ p.1 ≤ p.2 := by
    rw [hp]; split <;> constructor <;> dsimp only <;> omega
  split
  · exact fdiv_pow_nonneg _ _ (by nlinarith [hp1.1, hp1.2])
  · exact fdiv_pow_mono _ _ _ (by nlinarith [hp1.1, hp1.2])

theorem sqrt_ordered (i : DFI) (j : DFI) (hi : ordered i)
    (hj : DyadicFractionInterval.sqrt i = some j) : ordered j := by
  unfold DyadicFractionInterval.sqrt at hj
  by_cases hneg : i.lower_bound_numer * 2 ^ i.log2_denom < 0 ∨
      i.upper_bound_numer * 2 ^ i.log2_denom < 0
  · rw [if_pos hneg] at hj
    cases hj
  · rw [if_neg hneg] at hj
    have hje := Option.some.inj hj
    rw [← hje]
    unfold ordered
    dsimp only
    have hmono : (i.lower_bound_numer * 2 ^ i.log2_denom).toNat ≤
        (i.upper_bound_numer * 2 ^ i.log2_denom).toNat := by
      apply Int.toNat_le_toNat
      exact mul_le_mul_of_nonneg_right hi (by positivity)
    have hs := Nat.sqrt_le_sqrt hmono
    split
    · exact_mod_cast hs
    · have : (Nat.sqrt (i.lower_bound_numer * 2 ^ i.log2_denom).toNat : ℤ) ≤
          Nat.sqrt (i.upper_bound_numer * 2 ^ i.log2_denom).toNat := by
        exact_mod_cast hs
      omega

theorem convert_log2_denom_ordered (i : DFI) (n : ℕ) (hi : ordered i) :
    ordered (DyadicFractionInterval.convert_log2_denom i n) := by
  unfold ordered at *
  unfold DyadicFractionInterval.convert_log2_denom
  dsimp only
  unfold convert_log2_denom_floor convert_log2_denom_ceil
  split
  · exact mul_le_mul_of_nonneg_right hi (by positivity)
  · exact fdiv_le_ceil _ _ _ hi

/-- Claim C9 counterexample: the claim fails as stated at two concrete
inputs: `new 1 0 0` stores an unordered numerator pair unchecked, and
`pow` on the ordered interval `[2, 3]` (denominator `2^0`) with
exponent 2 returns numerators `(9, 4)` with `lower > upper` (the even
exponent discards the magnitude-swap bookkeeping that the inverted swap
condition made necessary). -/
theorem interval_invariant_violations :
    ¬ ordered (DyadicFractionInterval.new 1 0 0) ∧
    DyadicFractionInterval.pow ⟨2, 3, 0⟩ 2 = ⟨9, 4, 0⟩ ∧
    ¬ ordered (DyadicFractionInterval.pow ⟨2, 3, 0⟩ 2) := by
  have hloop : DyadicFractionInterval.pow_loop 0 2 3 2 1 (-1) = (9, -4) := by
    rw [DyadicFractionInterval.pow_loop, DyadicFractionInterval.pow_loop]
    norm_num
  have hpow : DyadicFractionInterval.pow ⟨2, 3, 0⟩ 2 = ⟨9, 4, 0⟩ := by
    rw [DyadicFractionInterval.pow]
    norm_num [DyadicFractionInterval.contains_zero, hloop]
  refine ⟨by decide, hpow, ?_⟩
  rw [hpow]
  decide

/-- Claim C9 (amended): `from_dyadic_fraction`, `from_ratio`, and
`from_ratio_range` (for `lo ≤ hi`) always produce intervals with
`lower_bound_numer ≤ upper_bound_numer`, and `new` does when its
arguments are given in order (it stores them unchecked); `add`, `sub`,
`mul` (by interval, integer, or rational), `div` (whenever it returns,
i.e. for a nonzero divisor), `square`, `sqrt` (whenever it returns),
`pow` with exponent at most 1, and `convert_log2_denom` preserve the
invariant; `pow` with exponent 2 or more can violate it. -/
theorem interval_invariant_preserved :
    (∀ numer : ℤ, ∀ n : ℕ, ordered (DyadicFractionInterval.from_dyadic_fraction numer n)) ∧
    (∀ r : ℚ, ∀ n : ℕ, ordered (DyadicFractionInterval.from_ratio r n)) ∧
    (∀ lo hi : ℚ, ∀ n : ℕ, lo ≤ hi →
      ordered (DyadicFractionInterval.from_ratio_range lo hi n)) ∧
    (∀ l u : ℤ, ∀ n : ℕ, l ≤ u → ordered (DyadicFractionInterval.new l u n)) ∧
    (∀ lhs rhs : DFI, ordered lhs → ordered rhs →
      ordered (DyadicFractionInterval.add lhs rhs) ∧
      ordered (DyadicFractionInterval.sub lhs rhs) ∧
      ordered (DyadicFractionInterval.mul lhs rhs)) ∧
    (∀ lhs : DFI, ∀ z : ℤ, ordered lhs →
      ordered (DyadicFractionInterval.mul_int lhs z)) ∧
    (∀ lhs : DFI, ∀ q : ℚ, ordered lhs →
      ordered (DyadicFractionInterval.mul_ratio lhs q)) ∧
    (∀ lhs j : DFI, ∀ z : ℤ, ordered lhs →
      DyadicFractionInterval.div_int lhs z = some j → ordered j) ∧
    (∀ lhs j : DFI, ∀ q : ℚ, ordered lhs →
      DyadicFractionInterval.div_ratio lhs q = some j → ordered j) ∧
    (∀ i : DFI, ordered i → ordered (DyadicFractionInterval.into_square i)) ∧
    (∀ i j : DFI, ordered i → DyadicFractionInterval.sqrt i = some j → ordered j) ∧
    (∀ i : DFI, ∀ e : ℕ, e ≤ 1 → ordered i →
      ordered (DyadicFractionInterval.pow i e)) ∧
    (∀ i : DFI, ∀ n : ℕ, ordered i →
      ordered (DyadicFractionInterval.convert_log2_denom i n)) := by
  refine ⟨?_, ?_, ?_, ?_, ?_, ?_, ?_, ?_, ?_, ?_, ?_, ?_, ?_⟩
  · intro numer n
    exact le_refl _
  · intro r n
    exact Int.floor_le_ceil _
  · intro lo hi n hle
    have hmul : lo * 2 ^ n ≤ hi * 2 ^ n :=
      mul_le_mul_of_nonneg_right hle (by positivity)
    exact le_trans (Int.floor_le_floor hmul) (Int.floor_le_ceil _)
  · intro l u n hle
    exact hle
  · intro lhs rhs hl hr
    exact ⟨add_ordered lhs rhs hl hr, sub_ordered lhs rhs hl hr,
      mul_ordered lhs rhs hl hr⟩
  · intro lhs z hl
    exact mul_int_ordered lhs z hl
  · intro lhs q hl
    exact mul_ratio_ordered lhs q hl
  · intro lhs j z hl hj
    exact div_int_ordered lhs z j hl hj
  · intro lhs j q hl hj
    exact div_ratio_ordered lhs q j hl hj
  · intro i hi
    exact into_square_ordered i hi
  · intro i j hi hj
    exact sqrt_ordered i j hi hj
  · intro i e he hi
    interval_cases e
    · unfold DyadicFractionInterval.pow DyadicFractionInterval.set_one ordered
      simp
    · unfold DyadicFractionInterval.pow
      simpa using hi
  · intro i n hi
    exact convert_log2_denom_ordered i n hi

/-- Witness for the amended C9: adding `[1/1, 2/1]` and `[3/2, 4/2]`
preserves the invariant. -/
theorem interval_invariant_preserved_witness :
    ordered (DyadicFractionInterval.add ⟨1, 2, 0⟩ ⟨3, 4, 1⟩) :=
  ((interval_invariant_preserved.2.2.2.2.1) ⟨1, 2, 0⟩ ⟨3, 4, 1⟩
    (by decide) (by decide)).1

end Algebraics
